import Mathlib

/-
Shallow embedding of `src/main.py`, an RSS/API → Mattermost notification bot.

The bot keeps, per source key, a list of already-handled identifiers
(`state[key] : list[str]`, called the seen-sequence here).  Each poll cycle
fetches items, filters out identifiers already in the seen-set snapshot,
optionally delivers the new ones to a webhook, appends handled identifiers to
the seen-sequence and truncates it to the last `MAX_IDS_PER_FEED` entries.

Network effects are embedded as explicit parameters:
* the fetch result is an input (`Option` of the item list);
* `send_to_mattermost` outcomes are an oracle `ok : Nat → Bool`, consulted at
  the index of the send call within the cycle;
* the Hacker News per-item detail fetch is a function `String → Option HNItem`
  (`none` models a failed request, which Python renders as `None`).
-/

namespace RssBot

/-! ### strip_html (src/main.py lines 71–76)

`strip_html` applies four `re.sub` passes and a final `str.strip`.  Each pass
is embedded as a fuel-indexed scan over the character list (fuel equal to the
input length always suffices, since every step consumes at least one
character); this keeps every function structurally recursive and hence
kernel-reducible for concrete evaluation. -/

/-- Python regex class `\s` restricted to ASCII (all inputs considered in this
development are ASCII): space, tab, newline, carriage return, vertical tab and
form feed.  The same set is what `str.strip()` removes for ASCII text. -/
def isPySpace (c : Char) : Bool :=
  c = ' ' || c = '\t' || c = '\n' || c = '\r' || c = '\x0b' || c = '\x0c'

/-- Greedy match of `\s*`: drop the maximal leading whitespace run. -/
def dropSpaces : List Char → List Char
  | [] => []
  | c :: cs => if isPySpace c then dropSpaces cs else c :: cs

/-- One left-to-right pass of `re.sub(r"<li>\s*", "- ", text)`:
at each position, if `<li>` followed by (greedily consumed) whitespace
matches, it is replaced by `- ` and scanning resumes after the match. -/
def subLiF : Nat → List Char → List Char
  | 0, l => l
  | _ + 1, [] => []
  | fuel + 1, '<' :: 'l' :: 'i' :: '>' :: rest =>
      '-' :: ' ' :: subLiF fuel (dropSpaces rest)
  | fuel + 1, c :: rest => c :: subLiF fuel rest

/-- One pass of `re.sub(r"<br\s*/?>", "\n", text)`.  After a literal `<br`,
`\s*` greedily eats whitespace (whitespace is never `/` or `>`, so no
backtracking arises) and then an optional `/` and a mandatory `>` close the
match. -/
def subBrF : Nat → List Char → List Char
  | 0, l => l
  | _ + 1, [] => []
  | fuel + 1, '<' :: 'b' :: 'r' :: rest =>
      match dropSpaces rest with
      | '/' :: '>' :: rest2 => '\n' :: subBrF fuel rest2
      | '>' :: rest2 => '\n' :: subBrF fuel rest2
      | _ => '<' :: subBrF fuel ('b' :: 'r' :: rest)
  | fuel + 1, c :: rest => c :: subBrF fuel rest

/-- Scan forward to the first `>` and return the remainder after it
(`none` when no `>` occurs).  `[^>]+` cannot cross a `>`, so the greedy
match of `<[^>]+>` ends exactly at the first later `>`. -/
def dropThroughGt : List Char → Option (List Char)
  | [] => none
  | '>' :: rest => some rest
  | _ :: rest => dropThroughGt rest

/-- One pass of `re.sub(r"<[^>]+>", "", text)`: a `<` followed by at least one
non-`>` character and then a `>` is deleted; a `<` that cannot complete a
match is kept and scanning moves on by one character. -/
def subTagsF : Nat → List Char → List Char
  | 0, l => l
  | _ + 1, [] => []
  | fuel + 1, '<' :: c :: rest =>
      if c = '>' then '<' :: subTagsF fuel ('>' :: rest)
      else
        match dropThroughGt (c :: rest) with
        | some rest2 => subTagsF fuel rest2
        | none => '<' :: subTagsF fuel (c :: rest)
  | fuel + 1, c :: rest => c :: subTagsF fuel rest

/-- Split off the leading run of newline characters, returning its length and
the remainder (which starts with a non-newline character or is empty). -/
def splitNlRun : List Char → Nat × List Char
  | '\n' :: rest =>
      let p := splitNlRun rest
      (p.1 + 1, p.2)
  | l => (0, l)

/-- One pass of `re.sub(r"\n{3,}", "\n\n", text)`: a maximal newline run of
length ≥ 3 collapses to exactly two newlines; shorter runs are kept. -/
def subNlF : Nat → List Char → List Char
  | 0, l => l
  | _ + 1, [] => []
  | fuel + 1, '\n' :: rest =>
      let p := splitNlRun rest
      if p.1 + 1 ≥ 3 then '\n' :: '\n' :: subNlF fuel p.2
      else '\n' :: List.replicate p.1 '\n' ++ subNlF fuel p.2
  | fuel + 1, c :: rest => c :: subNlF fuel rest

/-- Python `str.strip()`: remove leading and trailing whitespace. -/
def pyStrip (l : List Char) : List Char :=
  (dropSpaces (dropSpaces l).reverse).reverse

/-- `strip_html` from src/main.py lines 71–76: the four regex substitutions in
source order, then `strip`. -/
def strip_html (s : String) : String :=
  let t1 := subLiF s.data.length s.data
  let t2 := subBrF t1.length t1
  let t3 := subTagsF t2.length t2
  let t4 := subNlF t3.length t3
  String.mk (pyStrip t4)

/-- Executable substring test: `hasSub needle hay` holds iff `needle` occurs
contiguously inside `hay`. -/
def hasSub (needle : List Char) : List Char → Bool
  | [] => needle.isEmpty
  | c :: rest => needle.isPrefixOf (c :: rest) || hasSub needle rest

/-! ### Per-source state and retention

`state` is `dict[str, list[str]]`; the pollers below are modelled per source
key, so a source's entry is an `Option (List String)` (`none` = key absent,
i.e. the source has never been polled). -/

/-- `MAX_IDS_PER_FEED` from src/main.py line 30. -/
def MAX_IDS_PER_FEED : Nat := 1000

/-- Python `l[-n:]` for `n > 0`: the last `min n l.length` elements. -/
def takeLast (n : Nat) (l : List α) : List α := l.drop (l.length - n)

/-! ### GeekNews poller (src/main.py lines 107–143) -/

/-- A parsed feed entry, restricted to the fields `poll_geeknews` inspects for
identification.  `id = none` models a missing `id` key (`entry.get("id")`
returning `None`); `link` models `entry.get("link", "")`. -/
structure GNEntry where
  id : Option String
  link : String
deriving DecidableEq

/-- `entry.get("id") or entry.get("link", "")` — Python `or` falls through on
falsy values, so a missing or empty `id` yields the link. -/
def entryId (e : GNEntry) : String :=
  match e.id with
  | some s => if s = "" then e.link else s
  | none => e.link

/-- Result of one `poll_geeknews` cycle for its source key: the key's state
entry after the cycle, the entries submitted to `send_to_mattermost` (in call
order) and the identifiers appended to the seen-sequence (in append order). -/
structure GNResult where
  state : Option (List String)
  sends : List GNEntry
  appended : List String
deriving DecidableEq

/-- Line 122–123: entries whose identifier is not in the seen-set snapshot. -/
def gnNewEntries (seenList : List String) (entries : List GNEntry) : List GNEntry :=
  entries.filter (fun e => decide (entryId e ∉ seenList))

/-- Output of the steady-state delivery loop. -/
structure GNLoopOut where
  sends : List GNEntry
  appended : List String
  nextCall : Nat
deriving DecidableEq

/-- Lines 137–141: the steady-state loop body over the (already reversed)
new-entry list.  Every entry is submitted to the webhook; its identifier is
appended to the seen-sequence iff that send call succeeds.  `k` numbers the
send calls, indexing the outcome oracle.  The loop never re-reads the
seen-set, which was snapshotted before it started. -/
def gnSteps (ok : Nat → Bool) : List GNEntry → Nat → GNLoopOut
  | [], k => ⟨[], [], k⟩
  | e :: rest, k =>
      let r := gnSteps ok rest (k + 1)
      ⟨e :: r.sends, (if ok k then [entryId e] else []) ++ r.appended, r.nextCall⟩

/-- `poll_geeknews` (lines 107–143) for its source key.
`fetched = none` models a fetch exception or a bozo feed with no entries
(lines 108–116); `ok` is the webhook outcome oracle. -/
def poll_geeknews (st : Option (List String)) (fetched : Option (List GNEntry))
    (ok : Nat → Bool) : GNResult :=
  match fetched with
  | none => ⟨st, [], []⟩
  | some entries =>
      let firstRun := st.isNone
      let seenList := st.getD []
      let newEntries := gnNewEntries seenList entries
      if newEntries.isEmpty then ⟨st, [], []⟩
      else if firstRun then
        ⟨some (takeLast MAX_IDS_PER_FEED (seenList ++ newEntries.map entryId)), [],
          newEntries.map entryId⟩
      else
        let out := gnSteps ok newEntries.reverse 0
        ⟨some (takeLast MAX_IDS_PER_FEED (seenList ++ out.appended)), out.sends, out.appended⟩

/-! ### Hacker News poller (src/main.py lines 192–229) -/

/-- A fetched HN item, restricted to the fields `poll_hackernews` inspects.
`dead`/`deleted` model the truthiness of `item.get("dead")` /
`item.get("deleted")`; `score`/`descendants` model `item.get("score", 0)` /
`item.get("descendants", 0)` (a missing key is the default `0`). -/
structure HNItem where
  dead : Bool
  deleted : Bool
  score : Int
  descendants : Int
deriving DecidableEq

/-- Result of one `poll_hackernews` cycle for `HN_STATE_KEY`: the key's state
entry after the cycle, the identifiers submitted to `send_to_mattermost` (in
call order) and the identifiers appended to the seen-sequence. -/
structure HNResult where
  state : Option (List String)
  sends : List String
  appended : List String
deriving DecidableEq

/-- Line 201: `[str(sid) for sid in top_ids if str(sid) not in seen_set]`. -/
def hnNewIds (seenList : List String) (topIds : List Int) : List String :=
  (topIds.map (fun i => toString i)).filter (fun s => decide (s ∉ seenList))

/-- Output of the HN steady-state loop. -/
structure HNLoopOut where
  sends : List String
  appended : List String
  nextCall : Nat
deriving DecidableEq

/-- Lines 214–227: the steady-state loop over the (already reversed) new-id
list.  A failed detail fetch (`fi sid = none`) or a dead/deleted item appends
the identifier to the seen-sequence without a send call; an item whose
`score + descendants` is below the threshold is skipped without appending;
otherwise the item is submitted and its identifier appended iff the send call
succeeds.  `k` numbers the send calls, indexing the outcome oracle. -/
def hnSteps (fi : String → Option HNItem) (ok : Nat → Bool) (thr : Int) :
    List String → Nat → HNLoopOut
  | [], k => ⟨[], [], k⟩
  | sid :: rest, k =>
      match fi sid with
      | none =>
          let r := hnSteps fi ok thr rest k
          ⟨r.sends, sid :: r.appended, r.nextCall⟩
      | some item =>
          if item.dead || item.deleted then
            let r := hnSteps fi ok thr rest k
            ⟨r.sends, sid :: r.appended, r.nextCall⟩
          else if item.score + item.descendants < thr then
            hnSteps fi ok thr rest k
          else
            let r := hnSteps fi ok thr rest (k + 1)
            ⟨sid :: r.sends, (if ok k then [sid] else []) ++ r.appended, r.nextCall⟩

/-- `poll_hackernews` (lines 192–229) for `HN_STATE_KEY`.
`topIds = []` models a failed or empty `topstories.json` fetch (lines
193–195); `fi` is the per-item detail fetch; `thr` is
`HN_MIN_SCORE_COMMENTS`. -/
def poll_hackernews (st : Option (List String)) (topIds : List Int)
    (fi : String → Option HNItem) (ok : Nat → Bool) (thr : Int) : HNResult :=
  if topIds.isEmpty then ⟨st, [], []⟩
  else
    let firstRun := st.isNone
    let seenList := st.getD []
    let newIds := hnNewIds seenList topIds
    if newIds.isEmpty then ⟨st, [], []⟩
    else if firstRun then
      ⟨some (takeLast MAX_IDS_PER_FEED (seenList ++ newIds)), [], newIds⟩
    else
      let out := hnSteps fi ok thr newIds.reverse 0
      ⟨some (takeLast MAX_IDS_PER_FEED (seenList ++ out.appended)), out.sends, out.appended⟩

/-! ### save_state (src/main.py lines 45–50)

`save_state` serializes the full state to `sent.tmp` and then calls
`Path.replace` (POSIX `os.replace`, an atomic rename) onto `sent.json`.  The
embedding records every crash point as a filesystem snapshot: while the temp
file is being written its content may be any prefix of the serialized data,
and the rename is a single atomic step. -/

/-- Snapshot of the two files `save_state` touches: the canonical state file
`sent.json` and the temporary file `sent.tmp` (`none` = file absent). -/
structure FSState where
  canonical : Option String
  tmpFile : Option String
deriving DecidableEq

/-- The sequence of filesystem snapshots during one `save_state` call that
writes `content`: first the temp-file write, observable at any prefix of
`content` (a crash mid-write leaves a partial temp file), then the atomic
rename, after which the canonical file holds `content` and the temp file is
gone. -/
def saveStateTrace (fs : FSState) (content : String) : List FSState :=
  ((List.range (content.length + 1)).map
      (fun n => ⟨fs.canonical, some (String.mk (content.data.take n))⟩)) ++
    [⟨some content, none⟩]

/-! ### Helper lemmas -/

theorem takeLast_eq_self {α : Type} {n : Nat} {l : List α} (h : l.length ≤ n) :
    takeLast n l = l := by
  unfold takeLast
  rw [Nat.sub_eq_zero_of_le h, List.drop_zero]

theorem takeLast_length_le {α : Type} (n : Nat) (l : List α) :
    (takeLast n l).length ≤ n := by
  unfold takeLast
  rw [List.length_drop]
  omega

theorem mem_takeLast {α : Type} {n : Nat} {l : List α} {a : α}
    (h : a ∈ takeLast n l) : a ∈ l :=
  List.drop_subset _ _ h

theorem take_append_takeLast {α : Type} (n : Nat) (l : List α) :
    l.take (l.length - n) ++ takeLast n l = l :=
  List.take_append_drop _ _

theorem gnSteps_sends (ok : Nat → Bool) (es : List GNEntry) (k : Nat) :
    (gnSteps ok es k).sends = es := by
  induction es generalizing k with
  | nil => rfl
  | cons e rest ih => simp [gnSteps, ih]

theorem gnSteps_appended_allOk (es : List GNEntry) (k : Nat) :
    (gnSteps (fun _ => true) es k).appended = es.map entryId := by
  induction es generalizing k with
  | nil => rfl
  | cons e rest ih => simp [gnSteps, ih]

theorem gnSteps_appended_subset {ok : Nat → Bool} {es : List GNEntry} {k : Nat} {i : String}
    (h : i ∈ (gnSteps ok es k).appended) : i ∈ es.map entryId := by
  induction es generalizing k with
  | nil => simp [gnSteps] at h
  | cons e rest ih =>
      simp only [gnSteps, List.mem_append] at h
      rcases h with h | h
      · cases hok : ok k with
        | false => simp [hok] at h
        | true =>
            simp [hok] at h
            simp [h]
      · exact List.mem_cons_of_mem _ (ih h)

theorem gnSteps_appended_length (ok : Nat → Bool) (es : List GNEntry) (k : Nat) :
    (gnSteps ok es k).appended.length ≤ es.length := by
  induction es generalizing k with
  | nil => simp [gnSteps]
  | cons e rest ih =>
      have hih := ih (k + 1)
      cases hok : ok k <;> simp [gnSteps, hok] <;> omega

theorem hnSteps_sends_subset {fi : String → Option HNItem} {ok : Nat → Bool} {thr : Int}
    {ids : List String} {k : Nat} {sid : String}
    (h : sid ∈ (hnSteps fi ok thr ids k).sends) : sid ∈ ids := by
  induction ids generalizing k with
  | nil => simp [hnSteps] at h
  | cons a rest ih =>
      cases hfi : fi a with
      | none =>
          simp only [hnSteps, hfi] at h
          exact List.mem_cons_of_mem _ (ih h)
      | some item =>
          cases hdd : item.dead || item.deleted with
          | true =>
              simp only [hnSteps, hfi, hdd, if_true] at h
              exact List.mem_cons_of_mem _ (ih h)
          | false =>
              by_cases hs : item.score + item.descendants < thr
              · simp only [hnSteps, hfi, hdd, Bool.false_eq_true, if_false, if_pos hs] at h
                exact List.mem_cons_of_mem _ (ih h)
              · simp only [hnSteps, hfi, hdd, Bool.false_eq_true, if_false, if_neg hs,
                  List.mem_cons] at h
                rcases h with h | h
                · exact h ▸ List.mem_cons_self _ _
                · exact List.mem_cons_of_mem _ (ih h)

theorem hnSteps_appended_subset {fi : String → Option HNItem} {ok : Nat → Bool} {thr : Int}
    {ids : List String} {k : Nat} {sid : String}
    (h : sid ∈ (hnSteps fi ok thr ids k).appended) : sid ∈ ids := by
  induction ids generalizing k with
  | nil => simp [hnSteps] at h
  | cons a rest ih =>
      cases hfi : fi a with
      | none =>
          simp only [hnSteps, hfi, List.mem_cons] at h
          rcases h with h | h
          · exact h ▸ List.mem_cons_self _ _
          · exact List.mem_cons_of_mem _ (ih h)
      | some item =>
          cases hdd : item.dead || item.deleted with
          | true =>
              simp only [hnSteps, hfi, hdd, if_true, List.mem_cons] at h
              rcases h with h | h
              · exact h ▸ List.mem_cons_self _ _
              · exact List.mem_cons_of_mem _ (ih h)
          | false =>
              by_cases hs : item.score + item.descendants < thr
              · simp only [hnSteps, hfi, hdd, Bool.false_eq_true, if_false, if_pos hs] at h
                exact List.mem_cons_of_mem _ (ih h)
              · simp only [hnSteps, hfi, hdd, Bool.false_eq_true, if_false, if_neg hs,
                  List.mem_append] at h
                rcases h with h | h
                · cases hok : ok k with
                  | false => simp [hok] at h
                  | true =>
                      simp [hok] at h
                      simp [h]
                · exact List.mem_cons_of_mem _ (ih h)

theorem hnSteps_appended_length (fi : String → Option HNItem) (ok : Nat → Bool) (thr : Int)
    (ids : List String) (k : Nat) :
    (hnSteps fi ok thr ids k).appended.length ≤ ids.length := by
  induction ids generalizing k with
  | nil => simp [hnSteps]
  | cons a rest ih =>
      cases hfi : fi a with
      | none =>
          have hih := ih k
          simp [hnSteps, hfi]
          omega
      | some item =>
          cases hdd : item.dead || item.deleted with
          | true =>
              have hih := ih k
              simp [hnSteps, hfi, hdd]
              omega
          | false =>
              by_cases hs : item.score + item.descendants < thr
              · have hih := ih k
                simp [hnSteps, hfi, hdd, hs]
                omega
              · have hih := ih (k + 1)
                cases hok : ok k <;> simp [hnSteps, hfi, hdd, hs, hok] <;> omega

theorem hnSteps_mem_appended_none {fi : String → Option HNItem} {ok : Nat → Bool} {thr : Int}
    {ids : List String} {k : Nat} {sid : String}
    (hmem : sid ∈ ids) (hfail : fi sid = none) :
    sid ∈ (hnSteps fi ok thr ids k).appended := by
  induction ids generalizing k with
  | nil => simp at hmem
  | cons a rest ih =>
      rcases List.mem_cons.mp hmem with h | h
      · subst h
        simp [hnSteps, hfail]
      · cases hfi : fi a with
        | none => simp [hnSteps, hfi, ih h]
        | some item =>
            cases hdd : item.dead || item.deleted with
            | true => simp [hnSteps, hfi, hdd, ih h]
            | false =>
                by_cases hs : item.score + item.descendants < thr
                · simp [hnSteps, hfi, hdd, hs, ih h]
                · simp [hnSteps, hfi, hdd, hs, ih h]

theorem hnSteps_mem_appended_dead {fi : String → Option HNItem} {ok : Nat → Bool} {thr : Int}
    {ids : List String} {k : Nat} {sid : String} {it : HNItem}
    (hmem : sid ∈ ids) (hfi0 : fi sid = some it) (hdd0 : (it.dead || it.deleted) = true) :
    sid ∈ (hnSteps fi ok thr ids k).appended := by
  induction ids generalizing k with
  | nil => simp at hmem
  | cons a rest ih =>
      rcases List.mem_cons.mp hmem with h | h
      · subst h
        simp [hnSteps, hfi0, hdd0]
      · cases hfi : fi a with
        | none => simp [hnSteps, hfi, ih h]
        | some item =>
            cases hdd : item.dead || item.deleted with
            | true => simp [hnSteps, hfi, hdd, ih h]
            | false =>
                by_cases hs : item.score + item.descendants < thr
                · simp [hnSteps, hfi, hdd, hs, ih h]
                · simp [hnSteps, hfi, hdd, hs, ih h]

theorem hnSteps_sends_spec {fi : String → Option HNItem} {ok : Nat → Bool} {thr : Int}
    {ids : List String} {k : Nat} {sid : String}
    (h : sid ∈ (hnSteps fi ok thr ids k).sends) :
    ∃ it, fi sid = some it ∧ it.dead = false ∧ it.deleted = false ∧
      ¬ (it.score + it.descendants < thr) := by
  induction ids generalizing k with
  | nil => simp [hnSteps] at h
  | cons a rest ih =>
      cases hfi : fi a with
      | none =>
          simp only [hnSteps, hfi] at h
          exact ih h
      | some item =>
          cases hdd : item.dead || item.deleted with
          | true =>
              simp only [hnSteps, hfi, hdd, if_true] at h
              exact ih h
          | false =>
              by_cases hs : item.score + item.descendants < thr
              · simp only [hnSteps, hfi, hdd, Bool.false_eq_true, if_false, if_pos hs] at h
                exact ih h
              · simp only [hnSteps, hfi, hdd, Bool.false_eq_true, if_false, if_neg hs,
                  List.mem_cons] at h
                rcases h with h | h
                · subst h
                  rcases Bool.or_eq_false_iff.mp hdd with ⟨h1, h2⟩
                  exact ⟨item, hfi, h1, h2, hs⟩
                · exact ih h

theorem hnSteps_mem_sends {fi : String → Option HNItem} {ok : Nat → Bool} {thr : Int}
    {ids : List String} {k : Nat} {sid : String} {it : HNItem}
    (hmem : sid ∈ ids) (hfi0 : fi sid = some it) (hd : it.dead = false)
    (hdel : it.deleted = false) (hs0 : ¬ (it.score + it.descendants < thr)) :
    sid ∈ (hnSteps fi ok thr ids k).sends := by
  induction ids generalizing k with
  | nil => simp at hmem
  | cons a rest ih =>
      rcases List.mem_cons.mp hmem with h | h
      · subst h
        simp [hnSteps, hfi0, hd, hdel, hs0]
      · cases hfi : fi a with
        | none => simp [hnSteps, hfi, ih h]
        | some item =>
            cases hdd : item.dead || item.deleted with
            | true => simp [hnSteps, hfi, hdd, ih h]
            | false =>
                by_cases hs : item.score + item.descendants < thr
                · simp [hnSteps, hfi, hdd, hs, ih h]
                · simp [hnSteps, hfi, hdd, hs, ih h]

theorem hnSteps_appended_spec {fi : String → Option HNItem} {ok : Nat → Bool} {thr : Int}
    {ids : List String} {k : Nat} {sid : String}
    (h : sid ∈ (hnSteps fi ok thr ids k).appended) :
    fi sid = none ∨
      ∃ it, fi sid = some it ∧
        ((it.dead || it.deleted) = true ∨ ¬ (it.score + it.descendants < thr)) := by
  induction ids generalizing k with
  | nil => simp [hnSteps] at h
  | cons a rest ih =>
      cases hfi : fi a with
      | none =>
          simp only [hnSteps, hfi, List.mem_cons] at h
          rcases h with h | h
          · subst h
            exact Or.inl hfi
          · exact ih h
      | some item =>
          cases hdd : item.dead || item.deleted with
          | true =>
              simp only [hnSteps, hfi, hdd, if_true, List.mem_cons] at h
              rcases h with h | h
              · subst h
                exact Or.inr ⟨item, hfi, Or.inl hdd⟩
              · exact ih h
          | false =>
              by_cases hs : item.score + item.descendants < thr
              · simp only [hnSteps, hfi, hdd, Bool.false_eq_true, if_false, if_pos hs] at h
                exact ih h
              · simp only [hnSteps, hfi, hdd, Bool.false_eq_true, if_false, if_neg hs,
                  List.mem_append] at h
                rcases h with h | h
                · cases hok : ok k with
                  | false => simp [hok] at h
                  | true =>
                      simp [hok] at h
                      subst h
                      exact Or.inr ⟨item, hfi, Or.inr hs⟩
                · exact ih h

/-- Unfolding of `poll_geeknews` in the steady state (key present, at least
one new entry): the seen-sequence grows by the appended identifiers and is
truncated to the retention cap. -/
theorem poll_geeknews_steady (sl : List String) (es : List GNEntry) (ok : Nat → Bool)
    (h : gnNewEntries sl es ≠ []) :
    poll_geeknews (some sl) (some es) ok =
      ⟨some (takeLast MAX_IDS_PER_FEED
          (sl ++ (gnSteps ok (gnNewEntries sl es).reverse 0).appended)),
        (gnSteps ok (gnNewEntries sl es).reverse 0).sends,
        (gnSteps ok (gnNewEntries sl es).reverse 0).appended⟩ := by
  have h2 : (gnNewEntries sl es).isEmpty = false := by
    cases hE : gnNewEntries sl es with
    | nil => exact absurd hE h
    | cons a t => rfl
  simp [poll_geeknews, h2]

/-- Unfolding of `poll_hackernews` in the steady state (key present, at least
one new identifier). -/
theorem poll_hackernews_steady (sl : List String) (topIds : List Int)
    (fi : String → Option HNItem) (ok : Nat → Bool) (thr : Int)
    (h : hnNewIds sl topIds ≠ []) :
    poll_hackernews (some sl) topIds fi ok thr =
      ⟨some (takeLast MAX_IDS_PER_FEED
          (sl ++ (hnSteps fi ok thr (hnNewIds sl topIds).reverse 0).appended)),
        (hnSteps fi ok thr (hnNewIds sl topIds).reverse 0).sends,
        (hnSteps fi ok thr (hnNewIds sl topIds).reverse 0).appended⟩ := by
  have ht : topIds.isEmpty = false := by
    cases hT : topIds with
    | nil =>
        subst hT
        exact absurd rfl h
    | cons a t => rfl
  have h2 : (hnNewIds sl topIds).isEmpty = false := by
    cases hE : hnNewIds sl topIds with
    | nil => exact absurd hE h
    | cons a t => rfl
  simp [poll_hackernews, ht, h2]

/-- Membership in the filtered new-id list implies absence from the
seen-sequence snapshot. -/
theorem hnNewIds_not_seen {sl : List String} {topIds : List Int} {sid : String}
    (h : sid ∈ hnNewIds sl topIds) : sid ∉ sl := by
  unfold hnNewIds at h
  rcases List.mem_filter.mp h with ⟨_, hp⟩
  simpa using hp

/-- Membership in the filtered new-entry list implies the entry's identifier
is absent from the seen-sequence snapshot. -/
theorem gnNewEntries_not_seen {sl : List String} {es : List GNEntry} {e : GNEntry}
    (h : e ∈ gnNewEntries sl es) : entryId e ∉ sl := by
  unfold gnNewEntries at h
  rcases List.mem_filter.mp h with ⟨_, hp⟩
  simpa using hp

/-! ### Claim theorems -/

/-- Claim C3, counterexample: on the body `<li>one</li><li>two</li>` the
HTML-stripping step yields `- one- two` — a single line containing no newline
character at all, so `- one` and `- two` are NOT on separate lines as the
claim states.  (`strip_html` rewrites `<li>` to `- ` but deletes `</li>`
without inserting any line break.) -/
theorem strip_html_li_single_line_cex :
    strip_html "<li>one</li><li>two</li>" = "- one- two" ∧
    '\n' ∉ (strip_html "<li>one</li><li>two</li>").data := by
  decide

/-- Claim C3 (amended): for a feed entry whose HTML body is exactly
`<li>one</li><li>two</li>`, the formatted body contains `- one` and `- two`
and no residual HTML tags, but on one single line: the closing `</li>` tags
are stripped without inserting line breaks, so the output is exactly
`- one- two`. -/
theorem strip_html_li_flattened :
    strip_html "<li>one</li><li>two</li>" = "- one- two" ∧
    hasSub "- one".data (strip_html "<li>one</li><li>two</li>").data = true ∧
    hasSub "- two".data (strip_html "<li>one</li><li>two</li>").data = true ∧
    '<' ∉ (strip_html "<li>one</li><li>two</li>").data ∧
    '>' ∉ (strip_html "<li>one</li><li>two</li>").data := by
  decide

/-- Claim C1, counterexample: in steady state (`"0"` already seen), with the
ranking `[1]` and a detail fetch that fails for every identifier, the
identifier `"1"` IS appended to the seen-sequence and IS present in the
stored seen-state at the end of the cycle — contradicting the claim that a
fetch-failed identifier is not marked seen.  (Line 216 of src/main.py treats
`not item` exactly like dead/deleted: `seen_list.append(str_id)`.) -/
theorem hn_fetch_fail_marked_seen_cex :
    (poll_hackernews (some ["0"]) [1] (fun _ => none) (fun _ => true) 100).appended = ["1"] ∧
    "1" ∈ (poll_hackernews (some ["0"]) [1] (fun _ => none) (fun _ => true) 100).state.getD [] := by
  decide

/-- Claim C1 (amended): for the ranked-item source, every identifier in the
new-id list whose item-detail fetch fails IS appended to the source's
seen-sequence in that cycle, with no delivery call made for it; it is
therefore present in seen-state at the end of the cycle (stated here under
the retention cap, i.e. the cycle does not overflow `MAX_IDS_PER_FEED`) and
will NOT be retried. -/
theorem hn_fetch_fail_marked_seen (sl : List String) (topIds : List Int)
    (fi : String → Option HNItem) (ok : Nat → Bool) (thr : Int) (sid : String)
    (hmem : sid ∈ hnNewIds sl topIds) (hfail : fi sid = none)
    (hlen : sl.length + (hnNewIds sl topIds).length ≤ MAX_IDS_PER_FEED) :
    sid ∈ (poll_hackernews (some sl) topIds fi ok thr).appended ∧
    sid ∉ (poll_hackernews (some sl) topIds fi ok thr).sends ∧
    sid ∈ (poll_hackernews (some sl) topIds fi ok thr).state.getD [] := by
  have hne : hnNewIds sl topIds ≠ [] := by
    intro hE
    rw [hE] at hmem
    simp at hmem
  rw [poll_hackernews_steady sl topIds fi ok thr hne]
  have hmemr : sid ∈ (hnNewIds sl topIds).reverse := List.mem_reverse.mpr hmem
  have happ : sid ∈ (hnSteps fi ok thr (hnNewIds sl topIds).reverse 0).appended :=
    hnSteps_mem_appended_none hmemr hfail
  refine ⟨happ, ?_, ?_⟩
  · intro hc
    rcases hnSteps_sends_spec hc with ⟨it, hit, -⟩
    rw [hfail] at hit
    exact Option.noConfusion hit
  · have hlen2 : (sl ++ (hnSteps fi ok thr (hnNewIds sl topIds).reverse 0).appended).length ≤
        MAX_IDS_PER_FEED := by
      have h1 := hnSteps_appended_length fi ok thr (hnNewIds sl topIds).reverse 0
      rw [List.length_reverse] at h1
      rw [List.length_append]
      omega
    simp only [Option.getD_some]
    rw [takeLast_eq_self hlen2]
    exact List.mem_append_right _ happ

/-- Claim C1 (amended), witness at a concrete input. -/
theorem hn_fetch_fail_marked_seen_witness :
    "1" ∈ (poll_hackernews (some ["0"]) [1] (fun _ => none) (fun _ => true) 100).appended ∧
    "1" ∉ (poll_hackernews (some ["0"]) [1] (fun _ => none) (fun _ => true) 100).sends ∧
    "1" ∈ (poll_hackernews (some ["0"]) [1] (fun _ => none) (fun _ => true) 100).state.getD [] :=
  hn_fetch_fail_marked_seen ["0"] [1] (fun _ => none) (fun _ => true) 100 "1"
    (by decide) rfl (by decide)

/-- Claim C2: for a source whose key is absent from the loaded state, the
first poll that fetches a non-empty item list makes zero delivery calls and
marks every currently-fetched item's identifier as seen (stated under the
retention cap, i.e. at most `MAX_IDS_PER_FEED` fetched items, so the
first-run truncation does not evict any of them). -/
theorem bootstrap_no_delivery :
    (∀ (es : List GNEntry) (ok : Nat → Bool), es ≠ [] → es.length ≤ MAX_IDS_PER_FEED →
      (poll_geeknews none (some es) ok).sends = [] ∧
      ∀ e ∈ es, entryId e ∈ (poll_geeknews none (some es) ok).state.getD []) ∧
    (∀ (topIds : List Int) (fi : String → Option HNItem) (ok : Nat → Bool) (thr : Int),
      topIds ≠ [] → topIds.length ≤ MAX_IDS_PER_FEED →
      (poll_hackernews none topIds fi ok thr).sends = [] ∧
      ∀ i ∈ topIds, toString i ∈ (poll_hackernews none topIds fi ok thr).state.getD []) := by
  constructor
  · intro es ok hne hlen
    have hall : gnNewEntries [] es = es := by
      unfold gnNewEntries
      simp
    have hE : (gnNewEntries [] es).isEmpty = false := by
      rw [hall]
      cases es with
      | nil => exact absurd rfl hne
      | cons a t => rfl
    have hres : poll_geeknews none (some es) ok =
        ⟨some (takeLast MAX_IDS_PER_FEED (es.map entryId)), [], es.map entryId⟩ := by
      simp [poll_geeknews, hE, hall, hne]
    rw [hres]
    refine ⟨rfl, ?_⟩
    intro e he
    simp only [Option.getD_some]
    rw [takeLast_eq_self (by simpa using hlen)]
    exact List.mem_map_of_mem _ he
  · intro topIds fi ok thr hne hlen
    have hall : hnNewIds [] topIds = topIds.map (fun i => toString i) := by
      unfold hnNewIds
      simp
    have hE : (hnNewIds [] topIds).isEmpty = false := by
      rw [hall]
      cases topIds with
      | nil => exact absurd rfl hne
      | cons a t => rfl
    have ht : topIds.isEmpty = false := by
      cases topIds with
      | nil => exact absurd rfl hne
      | cons a t => rfl
    have hres : poll_hackernews none topIds fi ok thr =
        ⟨some (takeLast MAX_IDS_PER_FEED (topIds.map (fun i => toString i))), [],
          topIds.map (fun i => toString i)⟩ := by
      simp [poll_hackernews, ht, hE, hall, hne]
    rw [hres]
    refine ⟨rfl, ?_⟩
    intro i hi
    simp only [Option.getD_some]
    rw [takeLast_eq_self (by simpa using hlen)]
    exact List.mem_map_of_mem _ hi

/-- Claim C2, witness at concrete inputs for both sources. -/
theorem bootstrap_no_delivery_witness :
    (poll_geeknews none (some [⟨some "a", "L"⟩]) (fun _ => true)).sends = [] ∧
    entryId ⟨some "a", "L"⟩ ∈
      (poll_geeknews none (some [⟨some "a", "L"⟩]) (fun _ => true)).state.getD [] ∧
    (poll_hackernews none [7] (fun _ => none) (fun _ => true) 100).sends = [] ∧
    toString (7 : Int) ∈
      (poll_hackernews none [7] (fun _ => none) (fun _ => true) 100).state.getD [] :=
  ⟨(bootstrap_no_delivery.1 [⟨some "a", "L"⟩] (fun _ => true) (by decide) (by decide)).1,
    (bootstrap_no_delivery.1 [⟨some "a", "L"⟩] (fun _ => true) (by decide) (by decide)).2
      ⟨some "a", "L"⟩ (by decide),
    (bootstrap_no_delivery.2 [7] (fun _ => none) (fun _ => true) 100 (by decide) (by decide)).1,
    (bootstrap_no_delivery.2 [7] (fun _ => none) (fun _ => true) 100 (by decide) (by decide)).2
      7 (by decide)⟩

/-- Claim C4: a ranked item that reaches the relevance check (fetched, not
dead/deleted) is submitted for delivery iff its `score + descendants` is at
least the configured threshold (so an item exactly at the threshold is
delivered), and an item strictly below the threshold is neither delivered nor
appended to the seen-sequence. -/
theorem hn_threshold_boundary (sl : List String) (topIds : List Int)
    (fi : String → Option HNItem) (ok : Nat → Bool) (thr : Int) (sid : String) (it : HNItem)
    (hmem : sid ∈ hnNewIds sl topIds) (hfi : fi sid = some it)
    (hd : it.dead = false) (hdel : it.deleted = false) :
    (sid ∈ (poll_hackernews (some sl) topIds fi ok thr).sends ↔
      thr ≤ it.score + it.descendants) ∧
    (it.score + it.descendants < thr →
      sid ∉ (poll_hackernews (some sl) topIds fi ok thr).appended) := by
  have hne : hnNewIds sl topIds ≠ [] := by
    intro hE
    rw [hE] at hmem
    simp at hmem
  rw [poll_hackernews_steady sl topIds fi ok thr hne]
  have hmemr : sid ∈ (hnNewIds sl topIds).reverse := List.mem_reverse.mpr hmem
  constructor
  · constructor
    · intro hc
      rcases hnSteps_sends_spec hc with ⟨it2, hit2, -, -, hs2⟩
      rw [hfi] at hit2
      injection hit2 with h2
      subst h2
      exact Int.not_lt.mp hs2
    · intro hge
      exact hnSteps_mem_sends hmemr hfi hd hdel (Int.not_lt.mpr hge)
  · intro hlt hc
    rcases hnSteps_appended_spec hc with hnone | ⟨it2, hit2, hcase⟩
    · rw [hfi] at hnone
      exact Option.noConfusion hnone
    · rw [hfi] at hit2
      injection hit2 with h2
      subst h2
      rcases hcase with hdd | hns
      · rw [hd, hdel] at hdd
        simp at hdd
      · exact hns hlt

/-- Claim C4, witness: an item whose metric sum is exactly the threshold
(60 + 40 = 100) is delivered. -/
theorem hn_threshold_boundary_witness :
    ("5" ∈ (poll_hackernews (some ["0"]) [5]
        (fun _ => some ⟨false, false, 60, 40⟩) (fun _ => true) 100).sends ↔
      (100 : Int) ≤ (⟨false, false, 60, 40⟩ : HNItem).score +
        (⟨false, false, 60, 40⟩ : HNItem).descendants) ∧
    ((⟨false, false, 60, 40⟩ : HNItem).score +
        (⟨false, false, 60, 40⟩ : HNItem).descendants < 100 →
      "5" ∉ (poll_hackernews (some ["0"]) [5]
        (fun _ => some ⟨false, false, 60, 40⟩) (fun _ => true) 100).appended) :=
  hn_threshold_boundary ["0"] [5] (fun _ => some ⟨false, false, 60, 40⟩) (fun _ => true)
    100 "5" ⟨false, false, 60, 40⟩ (by decide) rfl rfl rfl

/-- Claim C9: a ranked item whose fetched detail carries the dead flag or the
deleted flag is appended to the seen-sequence in that cycle and no delivery
call is made for it. -/
theorem hn_dead_deleted_suppressed (sl : List String) (topIds : List Int)
    (fi : String → Option HNItem) (ok : Nat → Bool) (thr : Int) (sid : String) (it : HNItem)
    (hmem : sid ∈ hnNewIds sl topIds) (hfi : fi sid = some it)
    (hdd : (it.dead || it.deleted) = true) :
    sid ∈ (poll_hackernews (some sl) topIds fi ok thr).appended ∧
    sid ∉ (poll_hackernews (some sl) topIds fi ok thr).sends := by
  have hne : hnNewIds sl topIds ≠ [] := by
    intro hE
    rw [hE] at hmem
    simp at hmem
  rw [poll_hackernews_steady sl topIds fi ok thr hne]
  refine ⟨hnSteps_mem_appended_dead (List.mem_reverse.mpr hmem) hfi hdd, ?_⟩
  intro hc
  rcases hnSteps_sends_spec hc with ⟨it2, hit2, h1, h2, -⟩
  rw [hfi] at hit2
  injection hit2 with hq
  subst hq
  rw [h1, h2] at hdd
  simp at hdd

/-- Claim C9, witness: a dead item is marked seen without a delivery call. -/
theorem hn_dead_deleted_suppressed_witness :
    "5" ∈ (poll_hackernews (some ["0"]) [5]
      (fun _ => some ⟨true, false, 500, 40⟩) (fun _ => true) 100).appended ∧
    "5" ∉ (poll_hackernews (some ["0"]) [5]
      (fun _ => some ⟨true, false, 500, 40⟩) (fun _ => true) 100).sends :=
  hn_dead_deleted_suppressed ["0"] [5] (fun _ => some ⟨true, false, 500, 40⟩)
    (fun _ => true) 100 "5" ⟨true, false, 500, 40⟩ (by decide) rfl rfl

/-- Case analysis on `poll_geeknews`: either the source's state entry is left
untouched, or it becomes the last `MAX_IDS_PER_FEED` elements of the old
seen-sequence extended by the identifiers appended this cycle. -/
theorem poll_geeknews_state_cases (st : Option (List String)) (fetched : Option (List GNEntry))
    (ok : Nat → Bool) :
    (poll_geeknews st fetched ok).state = st ∨
    (poll_geeknews st fetched ok).state =
      some (takeLast MAX_IDS_PER_FEED (st.getD [] ++ (poll_geeknews st fetched ok).appended)) := by
  cases fetched with
  | none => exact Or.inl rfl
  | some es =>
      cases st with
      | none =>
          by_cases hne : gnNewEntries [] es = []
          · left
            simp [poll_geeknews, hne]
          · right
            simp [poll_geeknews, hne]
      | some sl =>
          by_cases hne : gnNewEntries sl es = []
          · left
            simp [poll_geeknews, hne]
          · right
            simp [poll_geeknews, hne]

/-- Case analysis on `poll_hackernews`, analogous to
`poll_geeknews_state_cases`. -/
theorem poll_hackernews_state_cases (st : Option (List String)) (topIds : List Int)
    (fi : String → Option HNItem) (ok : Nat → Bool) (thr : Int) :
    (poll_hackernews st topIds fi ok thr).state = st ∨
    (poll_hackernews st topIds fi ok thr).state =
      some (takeLast MAX_IDS_PER_FEED
        (st.getD [] ++ (poll_hackernews st topIds fi ok thr).appended)) := by
  cases ht : topIds.isEmpty with
  | true => exact Or.inl (by simp [poll_hackernews, ht])
  | false =>
      cases st with
      | none =>
          by_cases hne : hnNewIds [] topIds = []
          · left
            simp [poll_hackernews, ht, hne]
          · right
            simp [poll_hackernews, ht, hne]
      | some sl =>
          by_cases hne : hnNewIds sl topIds = []
          · left
            simp [poll_hackernews, ht, hne]
          · right
            simp [poll_hackernews, ht, hne]

/-- Claim C5: for both sources, whenever a poll cycle updates the source's
state entry, the stored seen-sequence is the last `MAX_IDS_PER_FEED` elements
of the old sequence extended by this cycle's appends; hence its length is at
most `MAX_IDS_PER_FEED`, and the dropped elements are exactly the oldest
prefix (FIFO eviction).  Stated, as the claim does, under the assumption that
the sequence satisfied the bound at the start of the cycle. -/
theorem bounded_retention :
    (∀ (st : Option (List String)) (fetched : Option (List GNEntry)) (ok : Nat → Bool),
      (st.getD []).length ≤ MAX_IDS_PER_FEED →
      (poll_geeknews st fetched ok).state = st ∨
      ((poll_geeknews st fetched ok).state =
          some (takeLast MAX_IDS_PER_FEED
            (st.getD [] ++ (poll_geeknews st fetched ok).appended)) ∧
        (takeLast MAX_IDS_PER_FEED
            (st.getD [] ++ (poll_geeknews st fetched ok).appended)).length ≤
          MAX_IDS_PER_FEED ∧
        (st.getD [] ++ (poll_geeknews st fetched ok).appended).take
              ((st.getD [] ++ (poll_geeknews st fetched ok).appended).length -
                MAX_IDS_PER_FEED) ++
            takeLast MAX_IDS_PER_FEED (st.getD [] ++ (poll_geeknews st fetched ok).appended) =
          st.getD [] ++ (poll_geeknews st fetched ok).appended)) ∧
    (∀ (st : Option (List String)) (topIds : List Int) (fi : String → Option HNItem)
        (ok : Nat → Bool) (thr : Int),
      (st.getD []).length ≤ MAX_IDS_PER_FEED →
      (poll_hackernews st topIds fi ok thr).state = st ∨
      ((poll_hackernews st topIds fi ok thr).state =
          some (takeLast MAX_IDS_PER_FEED
            (st.getD [] ++ (poll_hackernews st topIds fi ok thr).appended)) ∧
        (takeLast MAX_IDS_PER_FEED
            (st.getD [] ++ (poll_hackernews st topIds fi ok thr).appended)).length ≤
          MAX_IDS_PER_FEED ∧
        (st.getD [] ++ (poll_hackernews st topIds fi ok thr).appended).take
              ((st.getD [] ++ (poll_hackernews st topIds fi ok thr).appended).length -
                MAX_IDS_PER_FEED) ++
            takeLast MAX_IDS_PER_FEED
              (st.getD [] ++ (poll_hackernews st topIds fi ok thr).appended) =
          st.getD [] ++ (poll_hackernews st topIds fi ok thr).appended)) := by
  constructor
  · intro st fetched ok _
    rcases poll_geeknews_state_cases st fetched ok with h | h
    · exact Or.inl h
    · exact Or.inr ⟨h, takeLast_length_le _ _, take_append_takeLast _ _⟩
  · intro st topIds fi ok thr _
    rcases poll_hackernews_state_cases st topIds fi ok thr with h | h
    · exact Or.inl h
    · exact Or.inr ⟨h, takeLast_length_le _ _, take_append_takeLast _ _⟩

/-- Claim C5, witness at concrete inputs for both sources. -/
theorem bounded_retention_witness :
    ((poll_geeknews (some ["a"]) (some [⟨some "b", "L"⟩]) (fun _ => true)).state = some ["a"] ∨
      ((poll_geeknews (some ["a"]) (some [⟨some "b", "L"⟩]) (fun _ => true)).state =
          some (takeLast MAX_IDS_PER_FEED
            (["a"] ++ (poll_geeknews (some ["a"]) (some [⟨some "b", "L"⟩])
              (fun _ => true)).appended)) ∧
        (takeLast MAX_IDS_PER_FEED
            (["a"] ++ (poll_geeknews (some ["a"]) (some [⟨some "b", "L"⟩])
              (fun _ => true)).appended)).length ≤ MAX_IDS_PER_FEED ∧
        (["a"] ++ (poll_geeknews (some ["a"]) (some [⟨some "b", "L"⟩])
              (fun _ => true)).appended).take
              ((["a"] ++ (poll_geeknews (some ["a"]) (some [⟨some "b", "L"⟩])
                (fun _ => true)).appended).length - MAX_IDS_PER_FEED) ++
            takeLast MAX_IDS_PER_FEED
              (["a"] ++ (poll_geeknews (some ["a"]) (some [⟨some "b", "L"⟩])
                (fun _ => true)).appended) =
          ["a"] ++ (poll_geeknews (some ["a"]) (some [⟨some "b", "L"⟩])
            (fun _ => true)).appended)) ∧
    ((poll_hackernews (some ["a"]) [3] (fun _ => none) (fun _ => true) 100).state =
        some ["a"] ∨
      ((poll_hackernews (some ["a"]) [3] (fun _ => none) (fun _ => true) 100).state =
          some (takeLast MAX_IDS_PER_FEED
            (["a"] ++ (poll_hackernews (some ["a"]) [3] (fun _ => none)
              (fun _ => true) 100).appended)) ∧
        (takeLast MAX_IDS_PER_FEED
            (["a"] ++ (poll_hackernews (some ["a"]) [3] (fun _ => none)
              (fun _ => true) 100).appended)).length ≤ MAX_IDS_PER_FEED ∧
        (["a"] ++ (poll_hackernews (some ["a"]) [3] (fun _ => none)
              (fun _ => true) 100).appended).take
              ((["a"] ++ (poll_hackernews (some ["a"]) [3] (fun _ => none)
                (fun _ => true) 100).appended).length - MAX_IDS_PER_FEED) ++
            takeLast MAX_IDS_PER_FEED
              (["a"] ++ (poll_hackernews (some ["a"]) [3] (fun _ => none)
                (fun _ => true) 100).appended) =
          ["a"] ++ (poll_hackernews (some ["a"]) [3] (fun _ => none)
            (fun _ => true) 100).appended)) :=
  ⟨bounded_retention.1 (some ["a"]) (some [⟨some "b", "L"⟩]) (fun _ => true) (by decide),
    bounded_retention.2 (some ["a"]) [3] (fun _ => none) (fun _ => true) 100 (by decide)⟩

/-- Claim C6: in steady state (key present; stated under the retention cap so
truncation cannot evict this cycle's appends), for every identifier: if it
was appended this cycle (i.e. some delivery of it succeeded, or — for the
ranked source — it was fetch-failed/dead/deleted), it was absent from the
seen-sequence at the start of the cycle and is present at the end; and if it
was submitted for delivery but never appended (every delivery call for it
failed), it is absent from the end-of-cycle seen-sequence, so it will be
retried. -/
theorem dedup_soundness :
    (∀ (sl : List String) (es : List GNEntry) (ok : Nat → Bool),
      sl.length + es.length ≤ MAX_IDS_PER_FEED →
      ∀ i : String,
        (i ∈ (poll_geeknews (some sl) (some es) ok).appended →
          i ∉ sl ∧ i ∈ (poll_geeknews (some sl) (some es) ok).state.getD []) ∧
        (i ∈ (poll_geeknews (some sl) (some es) ok).sends.map entryId →
          i ∉ (poll_geeknews (some sl) (some es) ok).appended →
          i ∉ (poll_geeknews (some sl) (some es) ok).state.getD [])) ∧
    (∀ (sl : List String) (topIds : List Int) (fi : String → Option HNItem)
        (ok : Nat → Bool) (thr : Int),
      sl.length + topIds.length ≤ MAX_IDS_PER_FEED →
      ∀ i : String,
        (i ∈ (poll_hackernews (some sl) topIds fi ok thr).appended →
          i ∉ sl ∧ i ∈ (poll_hackernews (some sl) topIds fi ok thr).state.getD []) ∧
        (i ∈ (poll_hackernews (some sl) topIds fi ok thr).sends →
          i ∉ (poll_hackernews (some sl) topIds fi ok thr).appended →
          i ∉ (poll_hackernews (some sl) topIds fi ok thr).state.getD [])) := by
  constructor
  · intro sl es ok hlen i
    by_cases hne : gnNewEntries sl es = []
    · have hres : poll_geeknews (some sl) (some es) ok = ⟨some sl, [], []⟩ := by
        have hE : (gnNewEntries sl es).isEmpty = true := by rw [hne]; rfl
        simp [poll_geeknews, hE]
      rw [hres]
      constructor
      · intro h
        simp at h
      · intro h
        simp at h
    · rw [poll_geeknews_steady sl es ok hne]
      have hfull : (sl ++ (gnSteps ok (gnNewEntries sl es).reverse 0).appended).length ≤
          MAX_IDS_PER_FEED := by
        have h1 := gnSteps_appended_length ok (gnNewEntries sl es).reverse 0
        have h2 : (gnNewEntries sl es).length ≤ es.length := List.length_filter_le _ _
        rw [List.length_reverse] at h1
        rw [List.length_append]
        omega
      have hstate : (some (takeLast MAX_IDS_PER_FEED
          (sl ++ (gnSteps ok (gnNewEntries sl es).reverse 0).appended)) :
            Option (List String)).getD [] =
          sl ++ (gnSteps ok (gnNewEntries sl es).reverse 0).appended := by
        simp only [Option.getD_some]
        exact takeLast_eq_self hfull
      have hnotseen : ∀ j : String,
          j ∈ ((gnNewEntries sl es).reverse.map entryId) → j ∉ sl := by
        intro j hj
        rcases List.mem_map.mp hj with ⟨e, he, hje⟩
        rw [← hje]
        exact gnNewEntries_not_seen (List.mem_reverse.mp he)
      constructor
      · intro h
        have hj := hnotseen i (gnSteps_appended_subset h)
        refine ⟨hj, ?_⟩
        rw [hstate]
        exact List.mem_append_right _ h
      · intro hsend happ
        rw [gnSteps_sends] at hsend
        have hj := hnotseen i hsend
        rw [hstate]
        intro hc
        rcases List.mem_append.mp hc with hc | hc
        · exact hj hc
        · exact happ hc
  · intro sl topIds fi ok thr hlen i
    by_cases hne : hnNewIds sl topIds = []
    · have hres : poll_hackernews (some sl) topIds fi ok thr = ⟨some sl, [], []⟩ := by
        have hE : (hnNewIds sl topIds).isEmpty = true := by rw [hne]; rfl
        cases ht : topIds.isEmpty <;> simp [poll_hackernews, ht, hE]
      rw [hres]
      constructor
      · intro h
        simp at h
      · intro h
        simp at h
    · rw [poll_hackernews_steady sl topIds fi ok thr hne]
      have hfull : (sl ++ (hnSteps fi ok thr (hnNewIds sl topIds).reverse 0).appended).length ≤
          MAX_IDS_PER_FEED := by
        have h1 := hnSteps_appended_length fi ok thr (hnNewIds sl topIds).reverse 0
        have h2 : (hnNewIds sl topIds).length ≤ topIds.length := by
          have := List.length_filter_le (fun s => decide (s ∉ sl))
            (topIds.map (fun i => toString i))
          rw [List.length_map] at this
          exact this
        rw [List.length_reverse] at h1
        rw [List.length_append]
        omega
      have hstate : (some (takeLast MAX_IDS_PER_FEED
          (sl ++ (hnSteps fi ok thr (hnNewIds sl topIds).reverse 0).appended)) :
            Option (List String)).getD [] =
          sl ++ (hnSteps fi ok thr (hnNewIds sl topIds).reverse 0).appended := by
        simp only [Option.getD_some]
        exact takeLast_eq_self hfull
      constructor
      · intro h
        have hj : i ∉ sl :=
          hnNewIds_not_seen (List.mem_reverse.mp (hnSteps_appended_subset h))
        refine ⟨hj, ?_⟩
        rw [hstate]
        exact List.mem_append_right _ h
      · intro hsend happ
        have hj : i ∉ sl :=
          hnNewIds_not_seen (List.mem_reverse.mp (hnSteps_sends_subset hsend))
        rw [hstate]
        intro hc
        rcases List.mem_append.mp hc with hc | hc
        · exact hj hc
        · exact happ hc

/-- Claim C6, witness: a successfully delivered GeekNews identifier lands in
seen-state, and an HN identifier whose only delivery call failed stays out of
seen-state. -/
theorem dedup_soundness_witness :
    ("a" ∉ (["x"] : List String) ∧
      "a" ∈ (poll_geeknews (some ["x"]) (some [⟨some "a", "L"⟩])
        (fun _ => true)).state.getD []) ∧
    "5" ∉ (poll_hackernews (some ["x"]) [5] (fun _ => some ⟨false, false, 500, 0⟩)
      (fun _ => false) 100).state.getD [] :=
  ⟨(dedup_soundness.1 ["x"] [⟨some "a", "L"⟩] (fun _ => true) (by decide) "a").1 (by decide),
    (dedup_soundness.2 ["x"] [5] (fun _ => some ⟨false, false, 500, 0⟩) (fun _ => false) 100
      (by decide) "5").2 (by decide) (by decide)⟩

/-- Claim C8: a cycle whose fetch fails or yields an empty item list leaves
the source's state entry exactly as it was (absent keys stay absent, existing
sequences unchanged), delivers nothing and marks nothing seen.  `none` models
a GeekNews fetch exception or bozo feed without entries; `some []` an empty
entry list; `[]` a failed or empty HN top-stories fetch. -/
theorem transient_failure_no_mutation :
    (∀ (st : Option (List String)) (ok : Nat → Bool),
      poll_geeknews st none ok = ⟨st, [], []⟩) ∧
    (∀ (st : Option (List String)) (ok : Nat → Bool),
      poll_geeknews st (some []) ok = ⟨st, [], []⟩) ∧
    (∀ (st : Option (List String)) (fi : String → Option HNItem) (ok : Nat → Bool) (thr : Int),
      poll_hackernews st [] fi ok thr = ⟨st, [], []⟩) :=
  ⟨fun _ _ => rfl, fun _ _ => rfl, fun _ _ _ _ => rfl⟩

/-- An identifier absent from the seen-sequence snapshot occurs in the
filtered new-entry list's identifiers exactly as often as in the full fetched
batch: the dedup filter never removes an occurrence of an unseen id. -/
theorem gnNewEntries_count (sl : List String) (es : List GNEntry) (d : String)
    (hd : d ∉ sl) :
    ((gnNewEntries sl es).map entryId).count d = (es.map entryId).count d := by
  induction es with
  | nil => rfl
  | cons e rest ih =>
      unfold gnNewEntries at ih ⊢
      rw [List.filter_cons]
      by_cases he : entryId e = d
      · rw [if_pos (by rw [he]; exact decide_eq_true hd)]
        simp only [List.map_cons, List.count_cons, ih]
      · by_cases hp : decide (entryId e ∉ sl) = true
        · rw [if_pos hp]
          simp only [List.map_cons, List.count_cons, ih]
        · rw [if_neg hp, ih]
          simp only [List.map_cons, List.count_cons]
          have : (entryId e == d) = false := by
            simp [he]
          rw [this]
          simp

/-- Claim C10: the dedup check uses a seen-set snapshot taken before the
delivery loop and is not updated within the cycle: a steady-state batch
containing two entries with the same (unseen) identifier has both entries
pass dedup and both submitted for delivery, and when the sends succeed the
identifier is appended twice to the seen-sequence in that single cycle. -/
theorem within_cycle_duplicates (sl : List String) (es : List GNEntry) (d : String)
    (hd : d ∉ sl) (hc : (es.map entryId).count d = 2) :
    ((poll_geeknews (some sl) (some es) (fun _ => true)).sends.map entryId).count d = 2 ∧
    (poll_geeknews (some sl) (some es) (fun _ => true)).appended.count d = 2 := by
  have hcnt := gnNewEntries_count sl es d hd
  rw [hc] at hcnt
  have hne : gnNewEntries sl es ≠ [] := by
    intro hE
    rw [hE] at hcnt
    simp at hcnt
  rw [poll_geeknews_steady sl es (fun _ => true) hne]
  rw [gnSteps_sends, gnSteps_appended_allOk]
  constructor
  · rw [List.map_reverse, List.count_reverse]
    exact hcnt
  · rw [List.map_reverse, List.count_reverse]
    exact hcnt

/-- Claim C10, witness: a batch with the same identifier twice gets two
delivery calls and two appends in one cycle. -/
theorem within_cycle_duplicates_witness :
    ((poll_geeknews (some ["x"]) (some [⟨some "d", "L"⟩, ⟨some "d", "L"⟩])
        (fun _ => true)).sends.map entryId).count "d" = 2 ∧
    (poll_geeknews (some ["x"]) (some [⟨some "d", "L"⟩, ⟨some "d", "L"⟩])
      (fun _ => true)).appended.count "d" = 2 :=
  within_cycle_duplicates ["x"] [⟨some "d", "L"⟩, ⟨some "d", "L"⟩] "d"
    (by decide) (by decide)

/-- Claim C7: at every crash point of `save_state` — including after the temp
file is (possibly partially) written but before the rename — the canonical
state file holds either the complete previous state or the complete new
state, never a truncated mixture; and the final snapshot holds the new state
with the temp file gone.  (The rename itself is `pathlib.Path.replace`, i.e.
POSIX `os.replace`, modelled as a single atomic step.) -/
theorem save_state_atomic (fs : FSState) (content : String) (s : FSState)
    (hmem : s ∈ saveStateTrace fs content) :
    (s.canonical = fs.canonical ∨ s.canonical = some content) ∧
    (saveStateTrace fs content).getLast? = some ⟨some content, none⟩ := by
  constructor
  · unfold saveStateTrace at hmem
    rcases List.mem_append.mp hmem with h | h
    · rcases List.mem_map.mp h with ⟨n, -, hn⟩
      left
      rw [← hn]
    · right
      rw [List.mem_singleton.mp h]
  · unfold saveStateTrace
    rw [List.getLast?_concat]

/-- Claim C7, witness: the crash point right after creating the (still empty)
temp file leaves the canonical file at the previous complete state, and the
trace ends with the new state installed. -/
theorem save_state_atomic_witness :
    ((⟨some "old", some ""⟩ : FSState).canonical = (⟨some "old", none⟩ : FSState).canonical ∨
      (⟨some "old", some ""⟩ : FSState).canonical = some "new") ∧
    (saveStateTrace ⟨some "old", none⟩ "new").getLast? = some ⟨some "new", none⟩ :=
  save_state_atomic ⟨some "old", none⟩ "new" ⟨some "old", some ""⟩ (by decide)

end RssBot
